import Mathlib

/-!
Verification of the frame-rendering and streaming core of `ha-sensor-streamer`.

The Rust sources are shallowly embedded as executable Lean definitions:

* `src/image_gen.rs` — locale decimal-separator choice (`get_decimal_separator`),
  template resolution (`resolve_line` with its two regex passes), frame drawing
  (`draw_frame` / `generate_raw_frame`).  The two concrete regexes
  `\x7btime:([^\x7d]+)\x7d` and `\x7bsensor\.([\w\.]+)\x7d` are embedded as
  character-list scanners that reproduce the leftmost, non-overlapping,
  greedy matching behaviour of `Regex::replace_all` for exactly these patterns
  (`\w` is modelled over ASCII as alphanumeric-or-underscore).  Wall-clock
  time and font rasterisation are external capabilities and enter as function
  parameters (`fmt`/`clock`, `drawText`/`measure`), mirroring the spec's
  component boundaries.
* `src/main.rs` — the MJPEG multipart emission per tick and the sensor poller's
  cache update.
* `src/rtsp.rs` — the `need_data` callback's timestamp state machine
  (`u64` arithmetic modelled as `Nat` with explicit `% 2^64`).

Rust's `f64::from_str` grammar is embedded (`rustF64Parses`) to settle the
numeric-value locale substitution claims.
-/

/-! ## Rust `f64::from_str` grammar

`val.parse::<f64>().is_ok()` in `resolve_line` (src/image_gen.rs:103).
Grammar per the Rust standard library:
`Float ::= Sign? ( 'inf' | 'infinity' | 'nan' | Number )`,
`Number ::= ( Digit+ | Digit+ '.' Digit* | '.' Digit+ ) Exp?`,
`Exp ::= ('e'|'E') Sign? Digit+`, keywords case-insensitive. -/

/-- Drop one leading `+`/`-` sign, as Rust's float parser does. -/
def stripSign : List Char → List Char
  | [] => []
  | c :: cs => if c = '+' || c = '-' then cs else c :: cs

/-- ASCII-case-insensitive character-list equality (used for `inf`/`nan`). -/
def eqIC : List Char → List Char → Bool
  | [], [] => true
  | a :: as, b :: bs => (a.toLower == b.toLower) && eqIC as bs
  | _, _ => false

/-- A character that does not begin the exponent part. -/
def notExpChar (c : Char) : Bool := c != 'e' && c != 'E'

/-- The mantissa part of a Rust float literal:
`Digit+ | Digit+ '.' Digit* | '.' Digit+`. -/
def isMantissa (l : List Char) : Bool :=
  let ip := l.takeWhile Char.isDigit
  match l.dropWhile Char.isDigit with
  | [] => !ip.isEmpty
  | c :: frac => (c == '.') && frac.all Char.isDigit && (!ip.isEmpty || !frac.isEmpty)

/-- The part after the exponent marker: `Sign? Digit+`. -/
def isExpTail (l : List Char) : Bool :=
  let l1 := stripSign l
  !l1.isEmpty && l1.all Char.isDigit

/-- Whether `s.parse::<f64>()` succeeds in Rust. -/
def rustF64Parses (s : String) : Bool :=
  let l := stripSign s.data
  if eqIC l ['i', 'n', 'f'] || eqIC l ['i', 'n', 'f', 'i', 'n', 'i', 't', 'y'] ||
      eqIC l ['n', 'a', 'n'] then
    true
  else
    let mant := l.takeWhile notExpChar
    match l.dropWhile notExpChar with
    | [] => isMantissa mant
    | _ :: tail => isMantissa mant && isExpTail tail

/-! ## Locale handling (src/image_gen.rs:48-67) -/

/-- `ImageGenerator::get_decimal_separator`: comma for a curated list of
locale-prefix families, dot otherwise.  Rust's `to_lowercase`/`starts_with`
are modelled on the character list (the locale tags involved are ASCII). -/
def get_decimal_separator (locale : String) : Char :=
  let l := locale.data.map Char.toLower
  let comma_prefixes : List (List Char) :=
    [['s', 'v'], ['n', 'o'], ['n', 'b'], ['n', 'n'], ['d', 'a'], ['f', 'i'], ['i', 's'],
     ['d', 'e'], ['n', 'l'], ['p', 'l'], ['c', 's'], ['s', 'k'], ['h', 'u'], ['r', 'o'],
     ['b', 'g'], ['h', 'r'], ['s', 'r'], ['s', 'l'], ['b', 's'], ['m', 'k'],
     ['f', 'r'], ['e', 's'], ['p', 't'], ['i', 't'], ['e', 'l'], ['t', 'r'],
     ['r', 'u'], ['u', 'k'], ['b', 'e'], ['k', 'k'],
     ['i', 'd'], ['v', 'i'],
     ['a', 'z'], ['s', 'q'], ['h', 'y'], ['k', 'a']]
  if comma_prefixes.any (fun p => p.isPrefixOf l) then ',' else '.'

/-- The numeric-localisation step applied to each substituted sensor value
(src/image_gen.rs:102-107): if the value parses as `f64`, every `.` is
replaced by the configured separator (`str::replace` with a one-character
pattern and one-character replacement is a character map); otherwise the
value passes through unchanged. -/
def localize_value (sep : Char) (val : String) : String :=
  if rustF64Parses val then ⟨val.data.map (fun c => if c = '.' then sep else c)⟩ else val

/-- Modelled from the spec: "replaces exactly the first decimal point with a
comma" — replace only the first `.` of the list by `,`.  Used to compare the
code's replace-all behaviour with the spec's replace-first wording. -/
def replace_first_dot_with_comma : List Char → List Char
  | [] => []
  | c :: cs => if c = '.' then ',' :: cs else c :: replace_first_dot_with_comma cs

/-! ### Dot-counting lemmas for parseable values -/

lemma isDigit_ne_dot {c : Char} (h : c.isDigit = true) : c ≠ '.' := by
  intro hc; subst hc; exact absurd h (by decide)

lemma count_dot_eq_zero_of_all_digits {l : List Char} (h : l.all Char.isDigit = true) :
    l.count '.' = 0 := by
  rw [List.count_eq_zero]
  intro hm
  exact isDigit_ne_dot (List.all_eq_true.mp h _ hm) rfl

lemma count_dot_stripSign (l : List Char) : (stripSign l).count '.' = l.count '.' := by
  cases l with
  | nil => rfl
  | cons c cs =>
    by_cases hc : (c = '+' || c = '-') = true
    · have hcne : c ≠ '.' := by
        rcases Bool.or_eq_true_iff.mp hc with h | h
        · simp only [decide_eq_true_eq] at h; subst h; decide
        · simp only [decide_eq_true_eq] at h; subst h; decide
      simp [stripSign, hc, List.count_cons, hcne]
    · simp [stripSign, hc]

lemma count_dot_takeWhile_digits (l : List Char) :
    (l.takeWhile Char.isDigit).count '.' = 0 := by
  rw [List.count_eq_zero]
  intro hm
  exact isDigit_ne_dot (List.mem_takeWhile_imp hm) rfl

lemma no_dot_of_eqIC {kw : List Char} (hkw : ∀ b ∈ kw, Char.toLower b ≠ '.') :
    ∀ {l : List Char}, eqIC l kw = true → '.' ∉ l := by
  induction kw with
  | nil =>
    intro l h
    cases l with
    | nil => simp
    | cons a as => simp [eqIC] at h
  | cons b bs ih =>
    intro l h
    cases l with
    | nil => simp [eqIC] at h
    | cons a as =>
      simp only [eqIC, Bool.and_eq_true, beq_iff_eq] at h
      intro hm
      rcases List.mem_cons.mp hm with rfl | hm2
      · have : Char.toLower b = '.' := by
          rw [← h.1]; decide
        exact hkw b (List.mem_cons_self b bs) this
      · exact ih (fun x hx => hkw x (List.mem_cons_of_mem _ hx)) h.2 hm2

lemma count_dot_isMantissa {l : List Char} (h : isMantissa l = true) :
    l.count '.' ≤ 1 := by
  have hsplit : l.takeWhile Char.isDigit ++ l.dropWhile Char.isDigit = l :=
    List.takeWhile_append_dropWhile _ _
  rw [← hsplit, List.count_append, count_dot_takeWhile_digits]
  unfold isMantissa at h
  cases hd : l.dropWhile Char.isDigit with
  | nil => simp
  | cons c frac =>
    rw [hd] at h
    simp only [Bool.and_eq_true, beq_iff_eq] at h
    obtain ⟨⟨hc, hfrac⟩, _⟩ := h
    subst hc
    simp [List.count_cons, count_dot_eq_zero_of_all_digits hfrac]

lemma dropWhile_head_false {p : Char → Bool} {c : Char} {cs : List Char} :
    ∀ l : List Char, l.dropWhile p = c :: cs → p c = false := by
  intro l
  induction l with
  | nil => intro h; simp [List.dropWhile] at h
  | cons a as ih =>
    intro h
    by_cases ha : p a = true
    · rw [List.dropWhile_cons_of_pos ha] at h; exact ih h
    · rw [List.dropWhile_cons_of_neg (by simpa using ha)] at h
      cases h; simpa using ha

lemma count_dot_of_parses {s : String} (h : rustF64Parses s = true) :
    s.data.count '.' ≤ 1 := by
  rw [← count_dot_stripSign]
  unfold rustF64Parses at h
  set l := stripSign s.data with hl
  by_cases hkw : (eqIC l ['i', 'n', 'f'] || eqIC l ['i', 'n', 'f', 'i', 'n', 'i', 't', 'y'] ||
      eqIC l ['n', 'a', 'n']) = true
  · have hnm : '.' ∉ l := by
      rcases Bool.or_eq_true_iff.mp hkw with h1 | h2
      · rcases Bool.or_eq_true_iff.mp h1 with h3 | h4
        · exact no_dot_of_eqIC (by decide) h3
        · exact no_dot_of_eqIC (by decide) h4
      · exact no_dot_of_eqIC (by decide) h2
    simp [List.count_eq_zero.mpr hnm]
  · rw [if_neg hkw] at h
    have hsplit : l.takeWhile notExpChar ++ l.dropWhile notExpChar = l :=
      List.takeWhile_append_dropWhile _ _
    rw [← hsplit, List.count_append]
    cases hd : l.dropWhile notExpChar with
    | nil =>
      rw [hd] at h
      simp [count_dot_isMantissa h]
    | cons e tail =>
      rw [hd] at h
      simp only [Bool.and_eq_true] at h
      obtain ⟨hm, hexp⟩ := h
      have he : notExpChar e = false := dropWhile_head_false _ hd
      have hene : e ≠ '.' := by
        unfold notExpChar at he
        rcases Bool.and_eq_false_iff.mp he with h1 | h1 <;>
          · simp only [bne_eq_false_iff_eq] at h1; subst h1; decide
      have htail : tail.count '.' = 0 := by
        unfold isExpTail at hexp
        simp only [Bool.and_eq_true] at hexp
        rw [← count_dot_stripSign]
        exact count_dot_eq_zero_of_all_digits hexp.2
      simp [List.count_cons, hene, htail, count_dot_isMantissa hm]

lemma map_dot_noop {l : List Char} (h : '.' ∉ l) :
    l.map (fun c => if c = '.' then ',' else c) = l := by
  induction l with
  | nil => rfl
  | cons c cs ih =>
    have hc : c ≠ '.' := fun hc => h (hc ▸ List.mem_cons_self c cs)
    have hcs : '.' ∉ cs := fun hm => h (List.mem_cons_of_mem _ hm)
    simp [hc, ih hcs]

lemma map_dot_eq_replace_first {l : List Char} (h : l.count '.' ≤ 1) :
    l.map (fun c => if c = '.' then ',' else c) = replace_first_dot_with_comma l := by
  induction l with
  | nil => rfl
  | cons c cs ih =>
    by_cases hc : c = '.'
    · subst hc
      have hcs : cs.count '.' = 0 := by
        simp [List.count_cons] at h
        omega
      have hnotin : '.' ∉ cs := List.count_eq_zero.mp hcs
      simp only [replace_first_dot_with_comma, if_pos rfl, List.map_cons, if_pos rfl]
      exact congrArg _ (map_dot_noop hnotin)
    · have hcount : cs.count '.' ≤ 1 := by
        simpa [List.count_cons, hc] using h
      simp only [replace_first_dot_with_comma, if_neg hc, List.map_cons, if_neg hc]
      exact congrArg _ (ih hcount)

lemma map_dot_id (l : List Char) : l.map (fun c => if c = '.' then '.' else c) = l := by
  induction l with
  | nil => rfl
  | cons c cs ih => by_cases hc : c = '.' <;> simp [hc, ih]

/-- Claim C2: a sensor value that parses as a decimal number has (at most one
dot, hence) exactly its first dot turned into a comma under a comma-decimal
locale such as `sv_SE`, and is left unchanged under a dot-decimal locale such
as `en_US`; a value with two or more dots is never decimal-converted under any
locale, and a non-numeric value passes through unchanged. -/
theorem c2_decimal_localization (val loc : String) :
    (get_decimal_separator "sv_SE" = ',' ∧ get_decimal_separator "en_US" = '.') ∧
    (rustF64Parses val = true →
      localize_value ',' val = ⟨replace_first_dot_with_comma val.data⟩ ∧
      localize_value '.' val = val) ∧
    (2 ≤ val.data.count '.' → localize_value (get_decimal_separator loc) val = val) ∧
    (rustF64Parses val = false → localize_value (get_decimal_separator loc) val = val) := by
  refine ⟨⟨by decide, by decide⟩, ?_, ?_, ?_⟩
  · intro h
    constructor
    · rw [localize_value, if_pos h]
      exact congrArg String.mk (map_dot_eq_replace_first (count_dot_of_parses h))
    · rw [localize_value, if_pos h, map_dot_id]
  · intro h2
    have hf : rustF64Parses val = false := by
      cases hp : rustF64Parses val with
      | false => rfl
      | true => exact absurd h2 (by have := count_dot_of_parses hp; omega)
    rw [localize_value, if_neg (by simp [hf])]
  · intro hf
    rw [localize_value, if_neg (by simp [hf])]

/-- Witness for C2 at the spec's own examples. -/
theorem c2_witness :
    localize_value ',' "22.5" = "22,5" ∧
    localize_value (get_decimal_separator "sv_SE") "192.168.1.1" = "192.168.1.1" ∧
    localize_value (get_decimal_separator "sv_SE") "on" = "on" := by
  have h1 := (c2_decimal_localization "22.5" "sv_SE").2.1 (by decide)
  have h2 := (c2_decimal_localization "192.168.1.1" "sv_SE").2.2.1 (by decide)
  have h3 := (c2_decimal_localization "on" "sv_SE").2.2.2 (by decide)
  exact ⟨h1.1.trans (by decide), h2, h3⟩

/-! ## Template resolution (src/image_gen.rs:79-112)

`resolve_line` applies `time_regex.replace_all` and then
`sensor_regex.replace_all` to the template.  Both regexes are embedded as
scanners over the character list that reproduce `replace_all`'s leftmost,
non-overlapping matching (replacement text is never re-scanned within a
pass).  Wall-clock formatting `now.format(fmt)` is an external capability and
enters as a function `F : String → String` (the single captured `now`). -/

/-- A `\w`-or-dot character, the fragment class of the sensor regex
(`\w` over ASCII: alphanumeric or underscore). -/
def wordOrDot (c : Char) : Bool := c.isAlphanum || c == '_' || c == '.'

/-- Greedy scan of `[^\x7d]+\x7d`: the characters strictly before the first
`\x7d` and those after it, or `none` when no `\x7d` follows. -/
def takeUntilRBrace : List Char → Option (List Char × List Char)
  | [] => none
  | c :: cs =>
    if c = '\x7d' then some ([], cs)
    else
      match takeUntilRBrace cs with
      | some (a, b) => some (c :: a, b)
      | none => none

lemma takeUntilRBrace_eq : ∀ {l a b : List Char},
    takeUntilRBrace l = some (a, b) → l = a ++ '\x7d' :: b := by
  intro l
  induction l with
  | nil => intro a b h; simp [takeUntilRBrace] at h
  | cons c cs ih =>
    intro a b h
    by_cases hc : c = '\x7d'
    · subst hc
      rw [takeUntilRBrace, if_pos rfl] at h
      obtain ⟨rfl, rfl⟩ := Prod.mk.injEq .. ▸ Option.some.inj h
      rfl
    · rw [takeUntilRBrace, if_neg hc] at h
      cases htur : takeUntilRBrace cs with
      | none => rw [htur] at h; exact absurd h (by simp)
      | some ab =>
        obtain ⟨a1, b1⟩ := ab
        rw [htur] at h
        obtain ⟨rfl, rfl⟩ := Prod.mk.injEq .. ▸ Option.some.inj h
        simpa using ih htur

lemma takeUntilRBrace_append {f : List Char} (hf : '\x7d' ∉ f) (r : List Char) :
    takeUntilRBrace (f ++ '\x7d' :: r) = some (f, r) := by
  induction f with
  | nil => simp [takeUntilRBrace]
  | cons c cs ih =>
    have hc : c ≠ '\x7d' := fun h => hf (h ▸ List.mem_cons_self c cs)
    have hcs : '\x7d' ∉ cs := fun h => hf (List.mem_cons_of_mem _ h)
    have hrec := ih hcs
    simp [takeUntilRBrace, hc, hrec]

/-- Leftmost-match attempt of the time regex `\x7btime:([^\x7d]+)\x7d` at the
head of the list: on success, the format capture and the remainder after the
match. -/
def timeMatchAt : List Char → Option (List Char × List Char)
  | '\x7b' :: 't' :: 'i' :: 'm' :: 'e' :: ':' :: rest =>
    match takeUntilRBrace rest with
    | some (f, after) => if f = [] then none else some (f, after)
    | none => none
  | _ => none

lemma timeMatchAt_some {l f after : List Char} (h : timeMatchAt l = some (f, after)) :
    l = '\x7b' :: 't' :: 'i' :: 'm' :: 'e' :: ':' :: (f ++ '\x7d' :: after) := by
  unfold timeMatchAt at h
  split at h
  · rename_i rest
    split at h
    · rename_i f1 a1 htur
      split at h
      · exact absurd h (by simp)
      · obtain ⟨rfl, rfl⟩ := Prod.mk.injEq .. ▸ Option.some.inj h
        rw [takeUntilRBrace_eq htur]
    · exact absurd h (by simp)
  · exact absurd h (by simp)

lemma timeMatchAt_length {l f after : List Char} (h : timeMatchAt l = some (f, after)) :
    after.length < l.length := by
  rw [timeMatchAt_some h]
  simp [List.length_append]
  omega

lemma timeMatchAt_head {c : Char} (cs : List Char) (hc : c ≠ '\x7b') :
    timeMatchAt (c :: cs) = none := by
  unfold timeMatchAt
  split
  · rename_i heq
    simp [hc] at heq
  · rfl

lemma timeMatchAt_brace {c : Char} (cs : List Char) (hc : c ≠ 't') :
    timeMatchAt ('\x7b' :: c :: cs) = none := by
  unfold timeMatchAt
  split
  · rename_i heq
    simp [hc] at heq
  · rfl

lemma timeMatchAt_time {f : List Char} (r : List Char) (hf : '\x7d' ∉ f) (hne : f ≠ []) :
    timeMatchAt ('\x7b' :: 't' :: 'i' :: 'm' :: 'e' :: ':' :: (f ++ '\x7d' :: r)) =
      some (f, r) := by
  simp [timeMatchAt, takeUntilRBrace_append hf, hne]

/-- `time_regex.replace_all` with replacement `now.format(caps[1])`, i.e.
`F` applied to the capture. -/
def replaceTimeAll (F : String → String) (l : List Char) : List Char :=
  match h : timeMatchAt l with
  | some (f, after) => (F ⟨f⟩).data ++ replaceTimeAll F after
  | none =>
    match l with
    | [] => []
    | c :: cs => c :: replaceTimeAll F cs
termination_by l.length
decreasing_by
  · exact timeMatchAt_length h
  · simp

lemma replaceTimeAll_nil (F : String → String) : replaceTimeAll F [] = [] := by
  rw [replaceTimeAll]
  split
  · rename_i heq; simp [timeMatchAt] at heq
  · rfl

lemma replaceTimeAll_match (F : String → String) {l f after : List Char}
    (h : timeMatchAt l = some (f, after)) :
    replaceTimeAll F l = (F ⟨f⟩).data ++ replaceTimeAll F after := by
  rw [replaceTimeAll]
  split
  · rename_i f1 a1 heq
    obtain ⟨rfl, rfl⟩ := Prod.mk.injEq .. ▸ Option.some.inj (heq.symm.trans h)
    rfl
  · rename_i heq
    rw [h] at heq
    exact absurd heq (by simp)

lemma replaceTimeAll_none (F : String → String) {c : Char} {cs : List Char}
    (h : timeMatchAt (c :: cs) = none) :
    replaceTimeAll F (c :: cs) = c :: replaceTimeAll F cs := by
  rw [replaceTimeAll]
  split
  · rename_i f1 a1 heq
    rw [h] at heq
    exact absurd heq (by simp)
  · rfl

lemma rta_cons {F : String → String} {c : Char} (cs : List Char) (hc : c ≠ '\x7b') :
    replaceTimeAll F (c :: cs) = c :: replaceTimeAll F cs :=
  replaceTimeAll_none F (timeMatchAt_head cs hc)

lemma rta_brace {F : String → String} {c : Char} (cs : List Char) (hc : c ≠ 't') :
    replaceTimeAll F ('\x7b' :: c :: cs) = '\x7b' :: replaceTimeAll F (c :: cs) :=
  replaceTimeAll_none F (timeMatchAt_brace cs hc)

lemma rta_seg {F : String → String} {a : List Char} (b : List Char)
    (h : ∀ c ∈ a, c ≠ '\x7b') :
    replaceTimeAll F (a ++ b) = a ++ replaceTimeAll F b := by
  induction a with
  | nil => simp
  | cons c cs ih =>
    have hc := h c (List.mem_cons_self c cs)
    have hcs := fun x hx => h x (List.mem_cons_of_mem _ hx)
    simp only [List.cons_append]
    rw [rta_cons _ hc, ih hcs]

lemma rta_id {F : String → String} {a : List Char} (h : ∀ c ∈ a, c ≠ '\x7b') :
    replaceTimeAll F a = a := by
  have h2 : replaceTimeAll F (a ++ []) = a ++ replaceTimeAll F [] := rta_seg [] h
  simpa [replaceTimeAll_nil] using h2

lemma rta_time {F : String → String} {f : List Char} (r : List Char)
    (hf : '\x7d' ∉ f) (hne : f ≠ []) :
    replaceTimeAll F ('\x7b' :: 't' :: 'i' :: 'm' :: 'e' :: ':' :: (f ++ '\x7d' :: r)) =
      (F ⟨f⟩).data ++ replaceTimeAll F r :=
  replaceTimeAll_match F (timeMatchAt_time r hf hne)

/-- Leftmost-match attempt of the sensor regex `\x7bsensor\.([\w\.]+)\x7d` at
the head of the list: the (greedy, maximal) fragment capture and the
remainder after the match. -/
def sensorMatchAt : List Char → Option (List Char × List Char)
  | '\x7b' :: 's' :: 'e' :: 'n' :: 's' :: 'o' :: 'r' :: '.' :: rest =>
    match rest.dropWhile wordOrDot with
    | '\x7d' :: after =>
      if rest.takeWhile wordOrDot = [] then none
      else some (rest.takeWhile wordOrDot, after)
    | _ => none
  | _ => none

lemma sensorMatchAt_some {l frag after : List Char}
    (h : sensorMatchAt l = some (frag, after)) :
    l = '\x7b' :: 's' :: 'e' :: 'n' :: 's' :: 'o' :: 'r' :: '.' :: (frag ++ '\x7d' :: after) := by
  unfold sensorMatchAt at h
  split at h
  · rename_i rest
    split at h
    · rename_i a1 hdw
      split at h
      · exact absurd h (by simp)
      · obtain ⟨rfl, rfl⟩ := Prod.mk.injEq .. ▸ Option.some.inj h
        have hsplit : rest.takeWhile wordOrDot ++ rest.dropWhile wordOrDot = rest :=
          List.takeWhile_append_dropWhile _ _
        conv_lhs => rw [← hsplit, hdw]
    · exact absurd h (by simp)
  · exact absurd h (by simp)

lemma sensorMatchAt_length {l frag after : List Char}
    (h : sensorMatchAt l = some (frag, after)) :
    after.length < l.length := by
  rw [sensorMatchAt_some h]
  simp [List.length_append]
  omega

lemma sensorMatchAt_head {c : Char} (cs : List Char) (hc : c ≠ '\x7b') :
    sensorMatchAt (c :: cs) = none := by
  unfold sensorMatchAt
  split
  · rename_i heq
    simp [hc] at heq
  · rfl

lemma sensorMatchAt_brace {c : Char} (cs : List Char) (hc : c ≠ 's') :
    sensorMatchAt ('\x7b' :: c :: cs) = none := by
  unfold sensorMatchAt
  split
  · rename_i heq
    simp [hc] at heq
  · rfl

lemma takeWhile_all_append {p : Char → Bool} {a : List Char} (h : ∀ c ∈ a, p c = true)
    {x : Char} (hx : p x = false) (r : List Char) :
    (a ++ x :: r).takeWhile p = a := by
  induction a with
  | nil => simp [List.takeWhile_cons, hx]
  | cons c cs ih =>
    have hc := h c (List.mem_cons_self c cs)
    have hcs := fun y hy => h y (List.mem_cons_of_mem _ hy)
    simp [List.takeWhile_cons, hc, ih hcs]

lemma dropWhile_all_append {p : Char → Bool} {a : List Char} (h : ∀ c ∈ a, p c = true)
    {x : Char} (hx : p x = false) (r : List Char) :
    (a ++ x :: r).dropWhile p = x :: r := by
  induction a with
  | nil => simp [List.dropWhile_cons, hx]
  | cons c cs ih =>
    have hc := h c (List.mem_cons_self c cs)
    have hcs := fun y hy => h y (List.mem_cons_of_mem _ hy)
    simp [List.dropWhile_cons, hc, ih hcs]

lemma sensorMatchAt_sensor {frag : List Char} (r : List Char)
    (hfrag : ∀ c ∈ frag, wordOrDot c = true) (hne : frag ≠ []) :
    sensorMatchAt ('\x7b' :: 's' :: 'e' :: 'n' :: 's' :: 'o' :: 'r' :: '.' :: (frag ++ '\x7d' :: r)) =
      some (frag, r) := by
  have htw := takeWhile_all_append hfrag (show wordOrDot '\x7d' = false by decide) r
  have hdw := dropWhile_all_append hfrag (show wordOrDot '\x7d' = false by decide) r
  simp [sensorMatchAt, htw, hdw, hne]

/-- The replacement text for one sensor match (src/image_gen.rs:95-107):
rebuild the entity id as `sensor.<frag>`, look it up, default to `?`, then
apply the numeric-localisation step. -/
def sensor_substitution (sep : Char) (vals : String → Option String)
    (frag : List Char) : List Char :=
  (localize_value sep ((vals ("sensor." ++ ⟨frag⟩)).getD "?")).data

/-- `sensor_regex.replace_all` over the (already time-substituted) line. -/
def replaceSensorAll (sep : Char) (vals : String → Option String) (l : List Char) :
    List Char :=
  match h : sensorMatchAt l with
  | some (frag, after) =>
    sensor_substitution sep vals frag ++ replaceSensorAll sep vals after
  | none =>
    match l with
    | [] => []
    | c :: cs => c :: replaceSensorAll sep vals cs
termination_by l.length
decreasing_by
  · exact sensorMatchAt_length h
  · simp

lemma replaceSensorAll_nil (sep : Char) (vals : String → Option String) :
    replaceSensorAll sep vals [] = [] := by
  rw [replaceSensorAll]
  split
  · rename_i heq; simp [sensorMatchAt] at heq
  · rfl

lemma replaceSensorAll_match (sep : Char) (vals : String → Option String)
    {l frag after : List Char} (h : sensorMatchAt l = some (frag, after)) :
    replaceSensorAll sep vals l =
      sensor_substitution sep vals frag ++ replaceSensorAll sep vals after := by
  rw [replaceSensorAll]
  split
  · rename_i f1 a1 heq
    obtain ⟨rfl, rfl⟩ := Prod.mk.injEq .. ▸ Option.some.inj (heq.symm.trans h)
    rfl
  · rename_i heq
    rw [h] at heq
    exact absurd heq (by simp)

lemma replaceSensorAll_none (sep : Char) (vals : String → Option String)
    {c : Char} {cs : List Char} (h : sensorMatchAt (c :: cs) = none) :
    replaceSensorAll sep vals (c :: cs) = c :: replaceSensorAll sep vals cs := by
  rw [replaceSensorAll]
  split
  · rename_i f1 a1 heq
    rw [h] at heq
    exact absurd heq (by simp)
  · rfl

lemma rsa_cons {sep : Char} {vals : String → Option String} {c : Char}
    (cs : List Char) (hc : c ≠ '\x7b') :
    replaceSensorAll sep vals (c :: cs) = c :: replaceSensorAll sep vals cs :=
  replaceSensorAll_none sep vals (sensorMatchAt_head cs hc)

lemma rsa_brace {sep : Char} {vals : String → Option String} {c : Char}
    (cs : List Char) (hc : c ≠ 's') :
    replaceSensorAll sep vals ('\x7b' :: c :: cs) =
      '\x7b' :: replaceSensorAll sep vals (c :: cs) :=
  replaceSensorAll_none sep vals (sensorMatchAt_brace cs hc)

lemma rsa_seg {sep : Char} {vals : String → Option String} {a : List Char}
    (b : List Char) (h : ∀ c ∈ a, c ≠ '\x7b') :
    replaceSensorAll sep vals (a ++ b) = a ++ replaceSensorAll sep vals b := by
  induction a with
  | nil => simp
  | cons c cs ih =>
    have hc := h c (List.mem_cons_self c cs)
    have hcs := fun x hx => h x (List.mem_cons_of_mem _ hx)
    simp only [List.cons_append]
    rw [rsa_cons _ hc, ih hcs]

lemma rsa_id {sep : Char} {vals : String → Option String} {a : List Char}
    (h : ∀ c ∈ a, c ≠ '\x7b') :
    replaceSensorAll sep vals a = a := by
  have h2 : replaceSensorAll sep vals (a ++ []) = a ++ replaceSensorAll sep vals [] :=
    rsa_seg [] h
  simpa [replaceSensorAll_nil] using h2

lemma rsa_sensor {sep : Char} {vals : String → Option String} {frag : List Char}
    (r : List Char) (hfrag : ∀ c ∈ frag, wordOrDot c = true) (hne : frag ≠ []) :
    replaceSensorAll sep vals
        ('\x7b' :: 's' :: 'e' :: 'n' :: 's' :: 'o' :: 'r' :: '.' :: (frag ++ '\x7d' :: r)) =
      sensor_substitution sep vals frag ++ replaceSensorAll sep vals r :=
  replaceSensorAll_match sep vals (sensorMatchAt_sensor r hfrag hne)

/-- `ImageGenerator::resolve_line` (src/image_gen.rs:79-112): substitute all
time placeholders (formatting with the single captured `now`, abstracted as
`F`), then all sensor placeholders against the snapshot `vals`. -/
def resolve_line (sep : Char) (F : String → String) (vals : String → Option String)
    (template : String) : String :=
  ⟨replaceSensorAll sep vals (replaceTimeAll F template.data)⟩

/-- `resolve_line` with the `let now = Local::now()` made explicit: the clock
is a stream of instants, one sample is taken per call (the returned counter
advanced by one), and every time placeholder is formatted with that single
sample. -/
def resolve_line_clock (sep : Char) (fmt : Nat → String → String)
    (clock : Nat → Nat) (k : Nat) (vals : String → Option String)
    (template : String) : String × Nat :=
  let now := clock k
  (resolve_line sep (fmt now) vals template, k + 1)

lemma wordOrDot_ne_lbrace {c : Char} (h : wordOrDot c = true) : c ≠ '\x7b' := by
  intro hc; subst hc; exact absurd h (by decide)

lemma resolve_line_mk (sep : Char) (F : String → String)
    (vals : String → Option String) (l : List Char) :
    resolve_line sep F vals ⟨l⟩ = ⟨replaceSensorAll sep vals (replaceTimeAll F l)⟩ := rfl

lemma rta_sensor_word (F : String → String) (cs : List Char) :
    replaceTimeAll F ('s' :: 'e' :: 'n' :: 's' :: 'o' :: 'r' :: '.' :: cs) =
      's' :: 'e' :: 'n' :: 's' :: 'o' :: 'r' :: '.' :: replaceTimeAll F cs := by
  rw [rta_cons _ (show ('s' : Char) ≠ '\x7b' by decide),
    rta_cons _ (show ('e' : Char) ≠ '\x7b' by decide),
    rta_cons _ (show ('n' : Char) ≠ '\x7b' by decide),
    rta_cons _ (show ('s' : Char) ≠ '\x7b' by decide),
    rta_cons _ (show ('o' : Char) ≠ '\x7b' by decide),
    rta_cons _ (show ('r' : Char) ≠ '\x7b' by decide),
    rta_cons _ (show ('.' : Char) ≠ '\x7b' by decide)]

lemma localize_value_question (sep : Char) : localize_value sep "?" = "?" := by
  rw [localize_value, if_neg (by decide)]

/-- Claim C3: a sensor placeholder whose reconstructed entity id
(`sensor.` ++ fragment) is absent from the snapshot resolves to the literal
`?`; resolution never fails on a missing key. -/
theorem c3_missing_sensor (sep : Char) (F : String → String)
    (vals : String → Option String) (pre frag post : List Char)
    (hpre : ∀ c ∈ pre, c ≠ '\x7b')
    (hfrag : ∀ c ∈ frag, wordOrDot c = true) (hne : frag ≠ [])
    (hpost : ∀ c ∈ post, c ≠ '\x7b')
    (hmiss : vals ("sensor." ++ ⟨frag⟩) = none) :
    resolve_line sep F vals ⟨pre ++ "\x7bsensor.".data ++ frag ++ "\x7d".data ++ post⟩ =
      ⟨pre ++ "?".data ++ post⟩ := by
  rw [resolve_line_mk]
  refine congrArg String.mk ?_
  simp only [show ("\x7bsensor." : String).data =
      '\x7b' :: 's' :: 'e' :: 'n' :: 's' :: 'o' :: 'r' :: '.' :: [] from rfl,
    show ("\x7d" : String).data = '\x7d' :: [] from rfl,
    show ("?" : String).data = '?' :: [] from rfl,
    List.cons_append, List.nil_append, List.append_assoc]
  have hfrag2 : ∀ c ∈ frag, c ≠ '\x7b' := fun c hc => wordOrDot_ne_lbrace (hfrag c hc)
  rw [rta_seg _ hpre, rta_brace _ (show ('s' : Char) ≠ 't' by decide), rta_sensor_word,
    rta_seg _ hfrag2, rta_cons _ (show ('\x7d' : Char) ≠ '\x7b' by decide), rta_id hpost]
  rw [rsa_seg _ hpre, rsa_sensor _ hfrag hne, rsa_id hpost]
  rw [show sensor_substitution sep vals frag = '?' :: [] by
    rw [sensor_substitution, hmiss]
    simp [localize_value_question]]
  simp

/-- Witness for C3: a missing `sensor.temp` renders as `?` between the
literal parts. -/
theorem c3_witness :
    resolve_line '.' (fun s => s) (fun _ => none)
        ⟨"T: ".data ++ "\x7bsensor.".data ++ "temp".data ++ "\x7d".data ++ " C".data⟩ =
      ⟨"T: ".data ++ "?".data ++ " C".data⟩ :=
  c3_missing_sensor '.' (fun s => s) (fun _ => none) "T: ".data "temp".data " C".data
    (by decide) (by decide) (by decide) (by decide) rfl

lemma resolve_line_clock_eq (sep : Char) (fmt : Nat → String → String)
    (clock : Nat → Nat) (k : Nat) (vals : String → Option String) (t : String) :
    resolve_line_clock sep fmt clock k vals t =
      (resolve_line sep (fmt (clock k)) vals t, k + 1) := rfl

/-- Claim C4: in one call, every time placeholder is formatted against the
single instant sampled at the start of the call (`clock k`); the clock counter
advances exactly once per call, so no second instant can be observed within
the same resolved line. -/
theorem c4_single_time_capture (sep : Char) (fmt : Nat → String → String)
    (clock : Nat → Nat) (k : Nat) (vals : String → Option String)
    (pre mid post f g : List Char)
    (hpre : ∀ c ∈ pre, c ≠ '\x7b') (hmid : ∀ c ∈ mid, c ≠ '\x7b')
    (hpost : ∀ c ∈ post, c ≠ '\x7b')
    (hf : '\x7d' ∉ f) (hfne : f ≠ []) (hg : '\x7d' ∉ g) (hgne : g ≠ [])
    (hFf : ∀ c ∈ (fmt (clock k) ⟨f⟩).data, c ≠ '\x7b')
    (hFg : ∀ c ∈ (fmt (clock k) ⟨g⟩).data, c ≠ '\x7b') :
    resolve_line_clock sep fmt clock k vals
        ⟨pre ++ "\x7btime:".data ++ f ++ "\x7d".data ++ mid ++
          "\x7btime:".data ++ g ++ "\x7d".data ++ post⟩ =
      (⟨pre ++ (fmt (clock k) ⟨f⟩).data ++ mid ++ (fmt (clock k) ⟨g⟩).data ++ post⟩,
        k + 1) := by
  have key : replaceSensorAll sep vals (replaceTimeAll (fmt (clock k))
      (pre ++ "\x7btime:".data ++ f ++ "\x7d".data ++ mid ++
        "\x7btime:".data ++ g ++ "\x7d".data ++ post)) =
      pre ++ (fmt (clock k) ⟨f⟩).data ++ mid ++ (fmt (clock k) ⟨g⟩).data ++ post := by
    simp only [show ("\x7btime:" : String).data =
        '\x7b' :: 't' :: 'i' :: 'm' :: 'e' :: ':' :: [] from rfl,
      show ("\x7d" : String).data = '\x7d' :: [] from rfl,
      List.cons_append, List.nil_append, List.append_assoc]
    rw [rta_seg _ hpre, rta_time _ hf hfne, rta_seg _ hmid, rta_time _ hg hgne,
      rta_id hpost]
    have hall : ∀ c ∈ pre ++ ((fmt (clock k) ⟨f⟩).data ++
        (mid ++ ((fmt (clock k) ⟨g⟩).data ++ post))), c ≠ '\x7b' := by
      intro c hc
      simp only [List.mem_append] at hc
      rcases hc with h | h | h | h | h
      exacts [hpre c h, hFf c h, hmid c h, hFg c h, hpost c h]
    rw [rsa_id hall]
  rw [resolve_line_clock_eq, resolve_line_mk, key]

/-- Witness for C4: two time placeholders in one line, resolved in one call,
both show the instant sampled at the start of the call. -/
theorem c4_witness :
    resolve_line_clock '.' (fun now _ => toString now) (fun n => 100 + n) 0
        (fun _ => none)
        ⟨"A".data ++ "\x7btime:".data ++ "%H".data ++ "\x7d".data ++ "-".data ++
          "\x7btime:".data ++ "%M".data ++ "\x7d".data ++ "B".data⟩ =
      ("A100-100B", 1) := by
  have h := c4_single_time_capture '.' (fun now _ => toString now) (fun n => 100 + n) 0
    (fun _ => none) "A".data "-".data "B".data "%H".data "%M".data
    (by decide) (by decide) (by decide) (by decide) (by decide) (by decide) (by decide)
    (by decide) (by decide)
  exact h.trans (by decide)

/-- Counterexample to C5 as stated: text produced by a time substitution IS
re-scanned by the subsequent sensor pass.  The format capture `\x7bsensor.x`
is specifier-free, so `chrono` formats it to itself (`F = id`); together with
the following literal `\x7d` it forms a sensor placeholder which the second
pass then substitutes, yielding `7` instead of the un-re-scanned
`\x7bsensor.x\x7d`. -/
theorem c5_counterexample :
    resolve_line '.' (fun s => s)
        (fun id => if id = "sensor.x" then some "7" else none)
        "\x7btime:\x7bsensor.x\x7d\x7d" = "7" ∧
    ("7" : String) ≠ "\x7bsensor.x\x7d" := by
  constructor
  · have h1 : ("\x7btime:\x7bsensor.x\x7d\x7d" : String) =
        ⟨'\x7b' :: 't' :: 'i' :: 'm' :: 'e' :: ':' ::
          ("\x7bsensor.x".data ++ '\x7d' :: ('\x7d' :: []))⟩ := by decide
    have h2 : replaceTimeAll (fun s => s)
        ('\x7b' :: 't' :: 'i' :: 'm' :: 'e' :: ':' ::
          ("\x7bsensor.x".data ++ '\x7d' :: ('\x7d' :: []))) =
        '\x7b' :: 's' :: 'e' :: 'n' :: 's' :: 'o' :: 'r' :: '.' ::
          ('x' :: [] ++ '\x7d' :: []) := by
      rw [rta_time _ (show '\x7d' ∉ "\x7bsensor.x".data by decide)
          (show "\x7bsensor.x".data ≠ [] by decide),
        rta_cons _ (show ('\x7d' : Char) ≠ '\x7b' by decide), replaceTimeAll_nil]
      decide
    rw [h1, resolve_line_mk, h2,
      replaceSensorAll_match '.' _ (sensorMatchAt_sensor _
        (show ∀ c ∈ 'x' :: [], wordOrDot c = true by decide)
        (show ('x' :: [] : List Char) ≠ [] by decide)),
      replaceSensorAll_nil]
    decide
  · decide

lemma sensor_substitution_found {sep : Char} {vals : String → Option String}
    {frag : List Char} {va : String} (h : vals ("sensor." ++ ⟨frag⟩) = some va) :
    sensor_substitution sep vals frag = (localize_value sep va).data := by
  rw [sensor_substitution, h, Option.getD_some]

/-- Amended C5: time placeholders are substituted first, then sensor
placeholders are substituted over the time pass's output (so time-produced
text may be re-matched, see the counterexample); each sensor placeholder is
substituted independently, left to right, surrounding literal text is kept
verbatim, and a substituted sensor value is never re-scanned — it appears in
the output verbatim (up to decimal localisation) no matter what placeholder-like
text it contains. -/
theorem c5_substitution_independent (sep : Char) (F : String → String)
    (vals : String → Option String) (pre mid post a b : List Char) (va vb : String)
    (hpre : ∀ c ∈ pre, c ≠ '\x7b') (hmid : ∀ c ∈ mid, c ≠ '\x7b')
    (hpost : ∀ c ∈ post, c ≠ '\x7b')
    (ha : ∀ c ∈ a, wordOrDot c = true) (hane : a ≠ [])
    (hb : ∀ c ∈ b, wordOrDot c = true) (hbne : b ≠ [])
    (hva : vals ("sensor." ++ ⟨a⟩) = some va)
    (hvb : vals ("sensor." ++ ⟨b⟩) = some vb) :
    resolve_line sep F vals
        ⟨pre ++ "\x7bsensor.".data ++ a ++ "\x7d".data ++ mid ++
          "\x7bsensor.".data ++ b ++ "\x7d".data ++ post⟩ =
      ⟨pre ++ (localize_value sep va).data ++ mid ++
        (localize_value sep vb).data ++ post⟩ := by
  rw [resolve_line_mk]
  refine congrArg String.mk ?_
  simp only [show ("\x7bsensor." : String).data =
      '\x7b' :: 's' :: 'e' :: 'n' :: 's' :: 'o' :: 'r' :: '.' :: [] from rfl,
    show ("\x7d" : String).data = '\x7d' :: [] from rfl,
    List.cons_append, List.nil_append, List.append_assoc]
  have ha2 : ∀ c ∈ a, c ≠ '\x7b' := fun c hc => wordOrDot_ne_lbrace (ha c hc)
  have hb2 : ∀ c ∈ b, c ≠ '\x7b' := fun c hc => wordOrDot_ne_lbrace (hb c hc)
  rw [rta_seg _ hpre, rta_brace _ (show ('s' : Char) ≠ 't' by decide), rta_sensor_word,
    rta_seg _ ha2, rta_cons _ (show ('\x7d' : Char) ≠ '\x7b' by decide),
    rta_seg _ hmid, rta_brace _ (show ('s' : Char) ≠ 't' by decide), rta_sensor_word,
    rta_seg _ hb2, rta_cons _ (show ('\x7d' : Char) ≠ '\x7b' by decide), rta_id hpost]
  rw [rsa_seg _ hpre, rsa_sensor _ ha hane, rsa_seg _ hmid, rsa_sensor _ hb hbne,
    rsa_id hpost, sensor_substitution_found hva, sensor_substitution_found hvb]

/-- Witness for the amended C5: a substituted sensor value that itself looks
like a sensor placeholder is not re-expanded, and literal text survives
verbatim. -/
theorem c5_witness :
    resolve_line '.' (fun s => s)
        (fun id => if id = "sensor.temp" then some "\x7bsensor.hum\x7d"
          else if id = "sensor.hum" then some "50" else none)
        ⟨"T: ".data ++ "\x7bsensor.".data ++ "temp".data ++ "\x7d".data ++ " H: ".data ++
          "\x7bsensor.".data ++ "hum".data ++ "\x7d".data ++ "!".data⟩ =
      "T: \x7bsensor.hum\x7d H: 50!" := by
  have h := c5_substitution_independent '.' (fun s => s)
    (fun id => if id = "sensor.temp" then some "\x7bsensor.hum\x7d"
      else if id = "sensor.hum" then some "50" else none)
    "T: ".data " H: ".data "!".data "temp".data "hum".data "\x7bsensor.hum\x7d" "50"
    (by decide) (by decide) (by decide) (by decide) (by decide) (by decide) (by decide)
    (by decide) (by decide)
  exact h.trans (by decide)

/-! ## Frame renderer (src/image_gen.rs:114-159)

`draw_frame` builds an `RgbImage` (one `Rgb([r,g,b])` triple per pixel,
8-bit channels, no alpha), fills it black, lays the resolved lines out
vertically and draws them; `generate_raw_frame` returns `image.into_raw()`,
the packed row-major byte buffer.  The external capabilities — `rusttype`
glyph measurement and `imageproc::draw_text_mut` — enter as function
parameters; `draw_text_mut` mutates pixels through `&mut RgbImage`, which
cannot change the buffer's dimensions, so it is modelled as a transform of
the pixel function only.  The `f32` casts `font_size as i32` and
`(font_size * 0.25) as i32` are abstracted as the `Int` parameters
`lineHeight` and `gap`. -/

/-- One 8-bit-per-channel RGB pixel (`image::Rgb([r,g,b])`). -/
structure Rgb where
  r : Nat
  g : Nat
  b : Nat

/-- `image::RgbImage`: fixed dimensions plus the pixel contents. -/
structure ImageBuf where
  width : Nat
  height : Nat
  pixels : Nat → Nat → Rgb

/-- `RgbImage::new` zero-initialises every pixel. -/
def rgb_image_new (w h : Nat) : ImageBuf := ⟨w, h, fun _ _ => ⟨0, 0, 0⟩⟩

/-- The fill-with-black loop over `image.pixels_mut()`. -/
def fill_black (img : ImageBuf) : ImageBuf :=
  { img with pixels := fun _ _ => ⟨0, 0, 0⟩ }

/-- `total_lines * line_height + (total_lines - 1).max(0) * gap`
(src/image_gen.rs:131), in `i32` arithmetic. -/
def total_content_height (lineHeight gap : Int) (count : Nat) : Int :=
  (count : Int) * lineHeight + max ((count : Int) - 1) 0 * gap

/-- The per-line drawing loop (src/image_gen.rs:134-141): resolve, measure,
centre horizontally, stack vertically, draw white text. -/
def draw_lines (drawText : (Nat → Nat → Rgb) → Rgb → Int → Int → String →
      Nat → Nat → Rgb)
    (measure : String → Nat) (width : Nat) (startY lineHeight gap : Int)
    (sep : Char) (F : String → String) (vals : String → Option String) :
    List String → Nat → (Nat → Nat → Rgb) → Nat → Nat → Rgb
  | [], _, px => px
  | t :: rest, i, px =>
    let text := resolve_line sep F vals t
    let x : Int := ((width : Int) - (measure text : Int)) / 2
    let y : Int := startY + (i : Int) * (lineHeight + gap)
    draw_lines drawText measure width startY lineHeight gap sep F vals
      rest (i + 1) (drawText px ⟨255, 255, 255⟩ x y text)

/-- The renderer's fixed configuration (fields of `ImageGenerator` plus the
two `i32` layout values derived from `font_size`). -/
structure RenderParams where
  width : Nat
  height : Nat
  lineHeight : Int
  gap : Int
  sep : Char
  lines : List String

/-- `ImageGenerator::draw_frame`. -/
def draw_frame (drawText : (Nat → Nat → Rgb) → Rgb → Int → Int → String →
      Nat → Nat → Rgb)
    (measure : String → Nat) (p : RenderParams) (F : String → String)
    (vals : String → Option String) : ImageBuf :=
  let img := fill_black (rgb_image_new p.width p.height)
  let startY : Int :=
    ((p.height : Int) - total_content_height p.lineHeight p.gap p.lines.length) / 2
  { img with
    pixels := draw_lines drawText measure p.width startY p.lineHeight p.gap
      p.sep F vals p.lines 0 img.pixels }

/-- `RgbImage::into_raw`: the packed row-major buffer, three bytes per
pixel. -/
def into_raw (img : ImageBuf) : List Nat :=
  (List.range img.height).bind fun y =>
    (List.range img.width).bind fun x =>
      [(img.pixels x y).r, (img.pixels x y).g, (img.pixels x y).b]

/-- `ImageGenerator::generate_raw_frame` (src/image_gen.rs:156-159). -/
def generate_raw_frame (drawText : (Nat → Nat → Rgb) → Rgb → Int → Int → String →
      Nat → Nat → Rgb)
    (measure : String → Nat) (p : RenderParams) (F : String → String)
    (vals : String → Option String) : List Nat :=
  into_raw (draw_frame drawText measure p F vals)

lemma length_bind_const {α β : Type} (l : List α) (f : α → List β) (k : Nat)
    (h : ∀ a, (f a).length = k) : (l.bind f).length = l.length * k := by
  induction l with
  | nil => simp
  | cons a as ih =>
    simp only [List.cons_bind, List.length_append, ih, h a, List.length_cons]
    ring

lemma bind_const_replicate {α β : Type} (l : List α) (f : α → List β) (k : Nat)
    (x : β) (h : ∀ a, f a = List.replicate k x) :
    l.bind f = List.replicate (l.length * k) x := by
  induction l with
  | nil => simp
  | cons a as ih =>
    simp only [List.cons_bind, ih, h a, List.length_cons]
    rw [← List.replicate_add]
    congr 1
    ring

lemma into_raw_length (img : ImageBuf) :
    (into_raw img).length = img.width * img.height * 3 := by
  rw [into_raw]
  rw [length_bind_const (List.range img.height)
    (fun y => (List.range img.width).bind fun x =>
      [(img.pixels x y).r, (img.pixels x y).g, (img.pixels x y).b])
    (img.width * 3)
    (fun y => by
      rw [length_bind_const (List.range img.width)
        (fun x => [(img.pixels x y).r, (img.pixels x y).g, (img.pixels x y).b])
        3 (fun x => rfl)]
      simp [List.length_range])]
  simp [List.length_range]
  ring

lemma draw_frame_width (drawText : (Nat → Nat → Rgb) → Rgb → Int → Int → String →
      Nat → Nat → Rgb)
    (measure : String → Nat) (p : RenderParams) (F : String → String)
    (vals : String → Option String) :
    (draw_frame drawText measure p F vals).width = p.width := rfl

lemma draw_frame_height (drawText : (Nat → Nat → Rgb) → Rgb → Int → Int → String →
      Nat → Nat → Rgb)
    (measure : String → Nat) (p : RenderParams) (F : String → String)
    (vals : String → Option String) :
    (draw_frame drawText measure p F vals).height = p.height := rfl

/-- Claim C9: for every snapshot (and any external draw/measure capability),
the raw-frame accessor returns exactly `width * height * 3` bytes — three
8-bit channels per pixel, row-major, dimensions fixed by the renderer's
configuration. -/
theorem c9_raw_frame_size (drawText : (Nat → Nat → Rgb) → Rgb → Int → Int → String →
      Nat → Nat → Rgb)
    (measure : String → Nat) (p : RenderParams) (F : String → String)
    (vals : String → Option String) :
    (generate_raw_frame drawText measure p F vals).length = p.width * p.height * 3 := by
  rw [generate_raw_frame, into_raw_length, draw_frame_width, draw_frame_height]

/-- Claim C10: with an empty line list the layout computation is total — the
`(count - 1) * gap` term is clamped to zero — and the raw frame is entirely
black: `width * height * 3` zero bytes. -/
theorem c10_empty_lines (drawText : (Nat → Nat → Rgb) → Rgb → Int → Int → String →
      Nat → Nat → Rgb)
    (measure : String → Nat) (w h : Nat) (lineHeight gap : Int) (sep : Char)
    (F : String → String) (vals : String → Option String) :
    generate_raw_frame drawText measure ⟨w, h, lineHeight, gap, sep, []⟩ F vals =
      List.replicate (w * h * 3) 0 ∧
    total_content_height lineHeight gap 0 = 0 := by
  constructor
  · rw [generate_raw_frame]
    have hframe : draw_frame drawText measure ⟨w, h, lineHeight, gap, sep, []⟩ F vals =
        ⟨w, h, fun _ _ => ⟨0, 0, 0⟩⟩ := rfl
    rw [hframe]
    have hraw : into_raw ⟨w, h, fun _ _ => ⟨0, 0, 0⟩⟩ =
        (List.range h).bind fun _ => (List.range w).bind fun _ => [0, 0, 0] := rfl
    rw [hraw]
    rw [bind_const_replicate (List.range h)
      (fun _ => (List.range w).bind fun _ => ([0, 0, 0] : List Nat)) (w * 3) 0
      (fun _ => by
        rw [bind_const_replicate (List.range w) (fun _ => ([0, 0, 0] : List Nat)) 3 0
          (fun _ => rfl)]
        simp [List.length_range])]
    have harith : (List.range h).length * (w * 3) = w * h * 3 := by
      rw [List.length_range]; ring
    rw [harith]
  · rw [total_content_height]
    simp

/-! ## MJPEG stream driver (src/main.rs:141-238)

Per tick the loop snapshots the cache, calls `generate_frame`, and on success
yields three chunks: the textual part header, the JPEG bytes, and a trailing
CRLF; on error it yields nothing and continues.  Frame generation's result is
abstracted as `Option (List Nat)` (the JPEG encoder is external); bytes of
ASCII header text are the character code points. -/

/-- Bytes of an ASCII header string. -/
def str_bytes (s : String) : List Nat := s.data.map Char.toNat

/-- The multipart part header built by `format!` in `mjpeg_stream`
(src/main.rs:202-208). -/
def frame_header (n : Nat) : String :=
  "--frame\r\nContent-Type: image/jpeg\r\nContent-Length: " ++ toString n ++ "\r\n\r\n"

/-- The chunks yielded for one tick: header, JPEG bytes, CRLF on success;
nothing on a frame-generation error (src/main.rs:198-226). -/
def tick_output : Option (List Nat) → List (List Nat)
  | some jpeg => [str_bytes (frame_header jpeg.length), jpeg, str_bytes "\r\n"]
  | none => []

/-- The chunk stream produced by the driver loop over a sequence of ticks. -/
def mjpeg_run (ticks : List (Option (List Nat))) : List (List Nat) :=
  (ticks.map tick_output).join

/-- The response `Content-Type` header value (src/main.rs:235). -/
def mjpeg_content_type : String := "multipart/x-mixed-replace; boundary=frame"

/-- Claim C6: every successfully generated frame is emitted as exactly one
multipart part — `--frame`, `Content-Type: image/jpeg`, a `Content-Length`
announcing exactly the JPEG's byte count, a blank line, the JPEG bytes and a
trailing CRLF — and the response carries the `multipart/x-mixed-replace;
boundary=frame` content type. -/
theorem c6_multipart_format (jpeg : List Nat) :
    (tick_output (some jpeg)).join =
      str_bytes ("--frame\r\nContent-Type: image/jpeg\r\nContent-Length: " ++
        toString jpeg.length ++ "\r\n\r\n") ++ jpeg ++ str_bytes "\r\n" ∧
    mjpeg_content_type = "multipart/x-mixed-replace; boundary=frame" := by
  constructor
  · simp [tick_output, frame_header, List.join]
  · rfl

/-- Claim C7: a tick whose frame generation fails emits no bytes and does not
terminate the stream — the chunks of the remaining ticks still follow. -/
theorem c7_error_tick_skipped (before after : List (Option (List Nat))) :
    mjpeg_run (before ++ none :: after) = mjpeg_run before ++ mjpeg_run after ∧
    tick_output none = [] := by
  constructor
  · simp [mjpeg_run, tick_output]
  · rfl

/-! ## RTSP need-data callback (src/rtsp.rs:66-99)

Per session, `timestamp : u64` starts at `0` and `frame_duration =
1_000_000_000 / fps`; each invocation stamps the buffer with
`pts = timestamp` and `duration = frame_duration`, pushes (the result is
discarded: `let _ = appsrc.push_buffer(buffer)`), and then advances
`timestamp += frame_duration` unconditionally.  `u64` wrap-around is modelled
with an explicit `% 2^64`. -/

/-- `1_000_000_000 / (fps as u64)` (integer division). -/
def frame_duration (fps : Nat) : Nat := 1000000000 / fps

/-- One `need_data` invocation: `(pts, duration, next timestamp)`.  The push
result is ignored by the state update, exactly as in the source. -/
def need_data_step (fps timestamp : Nat) (pushOk : Bool) : Nat × Nat × Nat :=
  (timestamp, frame_duration fps, (timestamp + frame_duration fps) % 2 ^ 64)

/-- The session-local timestamp before the `n`-th invocation, given the
per-invocation push outcomes. -/
def session_timestamp (fps : Nat) (pushes : Nat → Bool) : Nat → Nat
  | 0 => 0
  | n + 1 => (need_data_step fps (session_timestamp fps pushes n) (pushes n)).2.2

lemma session_timestamp_push_irrel (fps : Nat) (pushes other : Nat → Bool) :
    ∀ n, session_timestamp fps pushes n = session_timestamp fps other n := by
  intro n
  induction n with
  | zero => rfl
  | succ m ih => simp [session_timestamp, need_data_step, ih]

lemma session_timestamp_eq (fps : Nat) (pushes : Nat → Bool) :
    ∀ n, n * frame_duration fps < 2 ^ 64 →
      session_timestamp fps pushes n = n * frame_duration fps := by
  intro n
  induction n with
  | zero => intro _; simp [session_timestamp]
  | succ m ih =>
    intro h
    have hm : m * frame_duration fps < 2 ^ 64 :=
      lt_of_le_of_lt (Nat.mul_le_mul_right _ (Nat.le_succ m)) h
    have hstep : session_timestamp fps pushes (m + 1) =
        (session_timestamp fps pushes m + frame_duration fps) % 2 ^ 64 := rfl
    rw [hstep, ih hm, ← Nat.succ_mul]
    exact Nat.mod_eq_of_lt h

/-- Claim C1: the `n`-th frame of a session carries
`pts = n * (1e9 / fps)` nanoseconds (integer division, as computed by the
code) and a duration of one frame interval; timestamps strictly increase
across invocations; and the counter advances identically whether or not the
downstream push succeeds. -/
theorem c1_rtsp_timestamps (fps n : Nat) (pushes : Nat → Bool)
    (hfps : 0 < fps) (hfps2 : fps ≤ 1000000000)
    (hov : (n + 1) * frame_duration fps < 2 ^ 64) :
    (need_data_step fps (session_timestamp fps pushes n) (pushes n)).1 =
      n * frame_duration fps ∧
    (need_data_step fps (session_timestamp fps pushes n) (pushes n)).2.1 =
      frame_duration fps ∧
    session_timestamp fps pushes n < session_timestamp fps pushes (n + 1) ∧
    (∀ other : Nat → Bool,
      session_timestamp fps pushes n = session_timestamp fps other n) := by
  have hn : n * frame_duration fps < 2 ^ 64 :=
    lt_of_le_of_lt (Nat.mul_le_mul_right _ (Nat.le_succ n)) hov
  have hd : 0 < frame_duration fps := Nat.div_pos hfps2 hfps
  refine ⟨?_, rfl, ?_, fun other => session_timestamp_push_irrel fps pushes other n⟩
  · exact session_timestamp_eq fps pushes n hn
  · rw [session_timestamp_eq fps pushes n hn, session_timestamp_eq fps pushes (n + 1) hov,
      Nat.succ_mul]
    omega

/-- Witness for C1 at `fps = 5`, `n = 3`, all pushes failing. -/
theorem c1_witness :
    (need_data_step 5 (session_timestamp 5 (fun _ => false) 3) false).1 = 600000000 ∧
    session_timestamp 5 (fun _ => false) 3 < session_timestamp 5 (fun _ => false) 4 := by
  have h := c1_rtsp_timestamps 5 3 (fun _ => false) (by decide) (by decide) (by decide)
  exact ⟨h.1.trans (by decide), h.2.2.1⟩

/-! ## Sensor poller (src/main.rs:74-93)

For each watched entity the poller fetches the state; on `Ok(val)` it inserts
into the shared map, on `Err` it does nothing (the comment in the source:
"keep old value").  The `HashMap` is modelled extensionally as
`String → Option String`. -/

/-- The shared sensor-value map. -/
def Cache : Type := String → Option String

/-- `HashMap::insert`: replace the binding for `k`. -/
def cache_insert (c : Cache) (k v : String) : Cache :=
  fun q => if q = k then some v else c q

/-- One entity's poll outcome applied to the cache: insert on success, leave
untouched on fetch failure. -/
def poll_step (c : Cache) (entity : String) (fetch : Option String) : Cache :=
  match fetch with
  | some v => cache_insert c entity v
  | none => c

/-- One full iteration over the watched entities and their fetch outcomes. -/
def poll_iteration (c : Cache) : List (String × Option String) → Cache
  | [] => c
  | (e, r) :: rest => poll_iteration (poll_step c e r) rest

/-- Claim C8: a failed fetch leaves the cache exactly as it was (atomicity on
error), and across a whole iteration any id without a successful fetch —
in particular one whose fetch failed — retains exactly its previous value;
a fetch failure never clears or overwrites an entry. -/
theorem c8_fetch_failure_keeps_cache (c : Cache) (e : String)
    (results : List (String × Option String)) (id : String)
    (hnone : ∀ v, (id, some v) ∉ results) :
    poll_step c e none = c ∧
    poll_iteration c results id = c id := by
  refine ⟨rfl, ?_⟩
  induction results generalizing c with
  | nil => rfl
  | cons hd tl ih =>
    obtain ⟨e1, r1⟩ := hd
    have htl : ∀ v, (id, some v) ∉ tl := fun v hv =>
      hnone v (List.mem_cons_of_mem _ hv)
    rw [poll_iteration, ih (poll_step c e1 r1) htl]
    cases r1 with
    | none => rfl
    | some v =>
      have hne : id ≠ e1 := by
        intro hid
        subst hid
        exact hnone v (List.mem_cons_self _ _)
      simp [poll_step, cache_insert, hne]

/-- Witness for C8: a failed fetch for `sensor.a` retains its previous
value. -/
theorem c8_witness :
    poll_iteration (fun k => if k = "sensor.a" then some "1" else none)
      [("sensor.a", none)] "sensor.a" = some "1" := by
  have h := c8_fetch_failure_keeps_cache
    (fun k => if k = "sensor.a" then some "1" else none) "x"
    [("sensor.a", none)] "sensor.a"
    (fun v hv => by simp at hv)
  exact h.2.trans (by decide)
